import Mathlib

/-!
Verification of the scalux mode-tree state-machine subsystem (`Machine`,
`modesTree`, `macroModes`, `subModes`, `mkModeOptions`) as documented in
`docs/scalux/en/machines.md`.  The repository is a documentation site: it
describes the behaviour of these functions but does not ship their
implementation, so every operation below is modelled from the specification
text and the documented examples, and the claims are settled against that
model.

Modes are slash-joined root-to-leaf key paths of a statically declared tree.
We embed the tree, the flattening compiler, the macro (prefix) and sub
(suffix) match/next handles, the construction-time validation and its error
taxonomy, and the mode-option selectors, then prove the specification's
properties about them.
-/

/-- Modelled from the spec: a Mode Tree Definition is "a nested mapping from
string keys to either `null` (leaf) or another nested mapping (internal
node)".  `leaf` is the `null` sentinel; `node` carries the key → subtree
mapping as an association list. -/
inductive ModeTree where
  | leaf : ModeTree
  | node : List (String × ModeTree) → ModeTree

mutual

/-- Modelled from the spec: the key sequences of all root-to-leaf paths of a
tree, in declaration order (the Tree Compiler's traversal). -/
def ModeTree.keyPaths : ModeTree → List (List String)
  | .leaf => [[]]
  | .node cs => keyPathsList cs

/-- Root-to-leaf key sequences contributed by a children list: each child key
is prepended to the paths of its subtree. -/
def keyPathsList : List (String × ModeTree) → List (List String)
  | [] => []
  | kt :: rest => (kt.2.keyPaths).map (kt.1 :: ·) ++ keyPathsList rest

end

/-- Keys are joined with the character `/`.  Working at the character-list
level keeps the path-boundary reasoning elementary. -/
def joinChars : List (List Char) → List Char
  | [] => []
  | [k] => k
  | k :: k2 :: ks => k ++ '/' :: joinChars (k2 :: ks)

/-- Modelled from the spec: a Mode "is a string formed by joining the
sequence of keys from the tree root to a leaf, separated by `/`". -/
def joinKeys (ks : List String) : String :=
  ⟨joinChars (ks.map String.data)⟩

/-- Modelled from the spec: Output 1 of the Tree Compiler, "the set of all
root-to-leaf path strings, each formed by joining the key sequence with
`/`". -/
def modesOf (t : ModeTree) : List String :=
  t.keyPaths.map joinKeys

/-- A key usable in a path: nonempty and free of the `/` separator (the
separator must be unambiguous for slash-joined paths to denote key
sequences). -/
def wfKey (k : String) : Bool :=
  (!(k == "")) && k.data.all (fun c => !(c == '/'))

/-- Keys at one node are pairwise distinct ("the mapping's key-uniqueness"). -/
def keysNodup : List String → Bool
  | [] => true
  | k :: ks => (!(ks.contains k)) && keysNodup ks

mutual

/-- Well-formed tree: every internal node is a nonempty mapping with distinct,
separator-free keys.  This is the shape the spec's Mode Tree Definitions
have by construction (a mapping's keys are unique, leaves are the `null`
sentinel). -/
def wfTree : ModeTree → Bool
  | .leaf => true
  | .node cs => (!cs.isEmpty) && keysNodup (cs.map Prod.fst) && wfChildren cs

/-- Well-formedness of a children list: keys are well formed and subtrees
recursively well formed. -/
def wfChildren : List (String × ModeTree) → Bool
  | [] => true
  | kt :: rest => wfKey kt.1 && wfTree kt.2 && wfChildren rest

end

/-- Look a key up in a children mapping. -/
def lookupChild (k : String) : List (String × ModeTree) → Option ModeTree
  | [] => none
  | kt :: rest => if kt.1 == k then some kt.2 else lookupChild k rest

/-- Walk a key path down a tree, returning the subtree it addresses. -/
def subtreeAt : ModeTree → List String → Option ModeTree
  | t, [] => some t
  | t, k :: ks =>
    match t with
    | .leaf => none
    | .node cs =>
      match lookupChild k cs with
      | some t2 => subtreeAt t2 ks
      | none => none

/-- A key path addresses a leaf of the tree. -/
def isLeafAt (t : ModeTree) (n : List String) : Bool :=
  match subtreeAt t n with
  | some .leaf => true
  | _ => false

/-- Modelled from the spec: an Internal Node Reference identifies "a specific
non-leaf node in the tree"; following design note 3 references are the key
paths of internal nodes. -/
def isInternalAt (t : ModeTree) (n : List String) : Bool :=
  match subtreeAt t n with
  | some (.node _) => true
  | _ => false

/-- Immediate-child keys of the node addressed by a key path. -/
def childKeysAt (t : ModeTree) (n : List String) : List String :=
  match subtreeAt t n with
  | some (.node cs) => cs.map Prod.fst
  | _ => []

/-- Modelled from the spec's error taxonomy: ConfigurationError,
InvalidPathError, InvalidTransitionError. -/
inductive MachineError where
  | configuration : MachineError
  | invalidPath : MachineError
  | invalidTransition : MachineError
  deriving DecidableEq

instance {ε α : Type} [DecidableEq ε] [DecidableEq α] : DecidableEq (Except ε α) := fun x y =>
  match x, y with
  | .ok a, .ok b => if h : a = b then isTrue (by rw [h]) else isFalse (by simp [h])
  | .error a, .error b => if h : a = b then isTrue (by rw [h]) else isFalse (by simp [h])
  | .ok _, .error _ => isFalse (by simp)
  | .error _, .ok _ => isFalse (by simp)

/-- Modelled from the spec: the `Machine` constructor receives the root
mapping of a mode tree and produces the flat mode set; "a tree with zero
keys at the root is invalid — fails with a ConfigurationError". -/
def Machine (cs : List (String × ModeTree)) : Except MachineError (List String) :=
  if cs.isEmpty then .error .configuration
  else .ok (modesOf (.node cs))

/-- Character-level drop from the front of a string. -/
def sdrop (s : String) (n : Nat) : String :=
  ⟨s.data.drop n⟩

/-- Character-level drop from the back of a string. -/
def sdropRight (s : String) (n : Nat) : String :=
  ⟨s.data.take (s.data.length - n)⟩

/-- One string begins with another (character-wise). -/
def sPre (p s : String) : Bool :=
  p.data.isPrefixOf s.data

/-- One string ends with another (character-wise). -/
def sSuf (p s : String) : Bool :=
  p.data.isSuffixOf s.data

/-- Modelled from the spec: `macroModes(p).match(mode)` "returns true iff
`mode` begins with `partialPrefixPath + \x22/\x22` (or equals it exactly, if
the prefix itself is a full Mode)". -/
def macroMatch (p m : String) : Bool :=
  (m == p) || sPre (p ++ "/") m

/-- Modelled from the spec: `macroModes(p).next(newPrefixPath, mode)` returns
the mode with the leading `p` segment replaced by the new prefix and the
remaining suffix preserved; it "re-validates" the mode against `p` and fails
with an InvalidTransitionError when the mode does not match or when the
substitution "would not yield a valid Mode in the tree". -/
def macroNext (t : ModeTree) (p p2 m : String) : Except MachineError String :=
  if macroMatch p m then
    if p2 ++ sdrop m p.length ∈ modesOf t then .ok (p2 ++ sdrop m p.length)
    else .error .invalidTransition
  else .error .invalidTransition

/-- Modelled from the spec: `macroModes(p)` handle construction "fails with
an InvalidPathError at construction time if the prefix matches no Mode". -/
def macroHandle (t : ModeTree) (p : String) : Except MachineError String :=
  if ∃ m ∈ modesOf t, macroMatch p m = true then .ok p else .error .invalidPath

/-- Modelled from the spec: `subModes(s).match(mode)` is "true iff `mode`
ends with `\x22/\x22 + partialSuffixPath` or equals it exactly". -/
def subMatch (s m : String) : Bool :=
  (m == s) || sSuf ("/" ++ s) m

/-- Modelled from the spec: `subModes(s).next(newSuffixPath, mode)` "replaces
the trailing `partialSuffixPath` segment with `newSuffixPath`, preserving
the leading portion; fails if the resulting string is not a valid Mode". -/
def subNext (t : ModeTree) (s s2 m : String) : Except MachineError String :=
  if subMatch s m then
    if sdropRight m s.length ++ s2 ∈ modesOf t then .ok (sdropRight m s.length ++ s2)
    else .error .invalidTransition
  else .error .invalidTransition

/-- Modelled from the spec: `subModes(s)` handle construction fails with an
InvalidPathError when the suffix matches no Mode. -/
def subHandle (t : ModeTree) (s : String) : Except MachineError String :=
  if ∃ m ∈ modesOf t, subMatch s m = true then .ok s else .error .invalidPath

/-- Modelled from the spec: the selector built by `mkModeOptions` for one
label: given a mode, if the mode's path passes through one of the listed
internal nodes it returns the key of the immediate child taken at that node,
otherwise `undefined` (here `none`). -/
def optionSelector (t : ModeTree) (refs : List (List String)) (m : String) : Option String :=
  refs.findSome? fun n =>
    (childKeysAt t n).find? fun k => macroMatch (joinKeys (n ++ [k])) m

/-- Modelled from the spec: `mkModeOptions` validation — "referencing a
nonexistent node fails with a ConfigurationError at construction". -/
def mkModeOption (t : ModeTree) (refs : List (List String)) :
    Except MachineError (String → Option String) :=
  if refs.all (fun n => isInternalAt t n) then .ok (optionSelector t refs)
  else .error .configuration

/-- The documented chess example: `{ userPlaying: { piecePicking: null,
pieceDumping: null }, opponentPlaying: { piecePicking: null, pieceDumping:
null } }`. -/
def chessChildren : List (String × ModeTree) :=
  [("userPlaying", .node [("piecePicking", .leaf), ("pieceDumping", .leaf)]),
   ("opponentPlaying", .node [("piecePicking", .leaf), ("pieceDumping", .leaf)])]

/-- The chess example tree. -/
def chessTree : ModeTree :=
  .node chessChildren

/-- The documented architectural-design example: `{ root: { planeView:
viewModes, view3D: viewModes } }` with `viewModes = { wall: { firstPoint:
null, secondPoint: null }, navigate: null }`. -/
def archViewModes : ModeTree :=
  .node [("wall", .node [("firstPoint", .leaf), ("secondPoint", .leaf)]),
         ("navigate", .leaf)]

/-- The architectural example tree. -/
def archTree : ModeTree :=
  .node [("root", .node [("planeView", archViewModes), ("view3D", archViewModes)])]

example : modesOf chessTree =
    ["userPlaying/piecePicking", "userPlaying/pieceDumping",
     "opponentPlaying/piecePicking", "opponentPlaying/pieceDumping"] := by decide

example : wfTree chessTree = true ∧ wfTree archTree = true := by decide

example : macroNext chessTree "userPlaying" "opponentPlaying" "userPlaying/piecePicking" =
    .ok "opponentPlaying/piecePicking" := by decide

example : subNext archTree "wall/secondPoint" "navigate" "root/planeView/wall/secondPoint" =
    .ok "root/planeView/navigate" := by decide

example : optionSelector archTree [["root", "planeView", "wall"], ["root", "view3D", "wall"]]
    "root/planeView/wall/firstPoint" = some "firstPoint" := by decide

/-! ## Character-level lemmas about slash-joined key paths -/

/-- Keys fit for joining: nonempty and free of the separator. -/
def GoodKeysC (ks : List (List Char)) : Prop :=
  ∀ k ∈ ks, k ≠ [] ∧ ∀ c ∈ k, c ≠ '/'

theorem joinChars_cons (k : List Char) (ks : List (List Char)) (h : ks ≠ []) :
    joinChars (k :: ks) = k ++ '/' :: joinChars ks := by
  cases ks with
  | nil => exact absurd rfl h
  | cons a as => rfl

theorem joinChars_append : ∀ (ks ls : List (List Char)), ks ≠ [] → ls ≠ [] →
    joinChars (ks ++ ls) = joinChars ks ++ '/' :: joinChars ls
  | [], _, hk, _ => absurd rfl hk
  | [k], [], _, hl => absurd rfl hl
  | [k], l :: ls, _, _ => by simp [joinChars]
  | k :: k2 :: ks, ls, _, hl => by
    have ih := joinChars_append (k2 :: ks) ls (by simp) hl
    show k ++ '/' :: joinChars ((k2 :: ks) ++ ls) =
      (k ++ '/' :: joinChars (k2 :: ks)) ++ '/' :: joinChars ls
    rw [ih]
    simp

/-- First-segment analysis of an equation between two slash-separated
strings: when the first block `k` on the right is separator-free, the left
block `u` either equals it or extends past the separator. -/
theorem sep_first : ∀ (k u v w : List Char), (∀ c ∈ k, c ≠ '/') →
    u ++ '/' :: v = k ++ '/' :: w →
    (u = k ∧ v = w) ∨ (∃ u2, u = k ++ '/' :: u2 ∧ u2 ++ '/' :: v = w)
  | [], u, v, w, _, h => by
    cases u with
    | nil => simp_all
    | cons x u2 =>
      simp only [List.cons_append, List.nil_append, List.cons.injEq] at h
      exact Or.inr ⟨u2, by simp [h.1], h.2⟩
  | y :: k2, u, v, w, hk, h => by
    cases u with
    | nil =>
      simp only [List.nil_append, List.cons_append, List.cons.injEq] at h
      exact absurd h.1.symm (hk y (by simp))
    | cons x u2 =>
      simp only [List.cons_append, List.cons.injEq] at h
      obtain ⟨hxy, h2⟩ := h
      rcases sep_first k2 u2 v w (fun c hc => hk c (by simp [hc])) h2 with hl | ⟨u3, hu3, hw⟩
      · exact Or.inl ⟨by rw [hxy, hl.1], hl.2⟩
      · exact Or.inr ⟨u3, by simp [hxy, hu3], hw⟩

/-- Two equal slash-joined strings over good keys come from equal key
sequences. -/
theorem joinChars_inj : ∀ (ks ls : List (List Char)), GoodKeysC ks → GoodKeysC ls →
    ks ≠ [] → ls ≠ [] → joinChars ks = joinChars ls → ks = ls
  | [], _, _, _, hk, _, _ => absurd rfl hk
  | _, [], _, _, _, hl, _ => absurd rfl hl
  | [k], [l], _, _, _, _, h => by simpa [joinChars] using h
  | [k], l :: l2 :: ls, hgk, _, _, _, h => by
    rw [joinChars, joinChars_cons l (l2 :: ls) (by simp)] at h
    have : '/' ∈ k := by rw [h]; simp
    exact absurd rfl ((hgk k (by simp)).2 '/' this)
  | k :: k2 :: ks, [l], _, hgl, _, _, h => by
    rw [joinChars, joinChars_cons k (k2 :: ks) (by simp)] at h
    have : '/' ∈ l := by rw [← h]; simp
    exact absurd rfl ((hgl l (by simp)).2 '/' this)
  | k :: k2 :: ks, l :: l2 :: ls, hgk, hgl, _, _, h => by
    rw [joinChars_cons k (k2 :: ks) (by simp), joinChars_cons l (l2 :: ls) (by simp)] at h
    rcases sep_first l k (joinChars (k2 :: ks)) (joinChars (l2 :: ls))
        (fun c hc => (hgl l (by simp)).2 c hc) h with ⟨hkl, hj⟩ | ⟨u2, hu2, _⟩
    · have := joinChars_inj (k2 :: ks) (l2 :: ls)
        (fun x hx => hgk x (by simp [hx])) (fun x hx => hgl x (by simp [hx]))
        (by simp) (by simp) hj
      rw [hkl, this]
    · have : '/' ∈ k := by rw [hu2]; simp
      exact absurd rfl ((hgk k (by simp)).2 '/' this)

/-- Splitting a slash-joined string at any separator occurrence splits the
key sequence. -/
theorem joinChars_split : ∀ (ms : List (List Char)), GoodKeysC ms → ∀ (u v : List Char),
    u ++ '/' :: v = joinChars ms →
    ∃ qs rs, ms = qs ++ rs ∧ qs ≠ [] ∧ rs ≠ [] ∧ u = joinChars qs ∧ v = joinChars rs
  | [], _, u, v, h => by simp [joinChars] at h
  | [k], hg, u, v, h => by
    have : '/' ∈ k := by rw [← show u ++ '/' :: v = k from h]; simp
    exact absurd rfl ((hg k (by simp)).2 '/' this)
  | k :: k2 :: ks, hg, u, v, h => by
    rw [joinChars_cons k (k2 :: ks) (by simp)] at h
    rcases sep_first k u v (joinChars (k2 :: ks))
        (fun c hc => (hg k (by simp)).2 c hc) h with ⟨hu, hv⟩ | ⟨u2, hu2, hw⟩
    · exact ⟨[k], k2 :: ks, rfl, by simp, by simp, by simpa [joinChars] using hu, hv⟩
    · obtain ⟨qs, rs, hms, hqs, hrs, hu', hv'⟩ :=
        joinChars_split (k2 :: ks) (fun x hx => hg x (by simp [hx])) u2 v hw
      refine ⟨k :: qs, rs, by simp [hms], by simp, hrs, ?_, hv'⟩
      rw [hu2, hu', joinChars_cons k qs hqs]

/-- The separator-terminated join of one good key sequence is a strict
character-prefix of the join of another iff the first sequence is a strict
list-prefix of the second. -/
theorem joinChars_sep_pre (ks ls : List (List Char)) (hgk : GoodKeysC ks)
    (hgl : GoodKeysC ls) (hk : ks ≠ []) (_hl : ls ≠ []) :
    (joinChars ks ++ ['/']) <+: joinChars ls ↔ ks <+: ls ∧ ks ≠ ls := by
  constructor
  · rintro ⟨t, ht⟩
    rw [List.append_assoc] at ht
    obtain ⟨qs, rs, hms, hqs, hrs, hu, hv⟩ := joinChars_split ls hgl (joinChars ks) t ht
    have hkq : ks = qs := by
      refine joinChars_inj ks qs hgk (fun x hx => hgl x (by rw [hms]; simp [hx])) hk hqs hu
    subst hkq
    constructor
    · exact ⟨rs, hms.symm⟩
    · intro hcon
      rw [← hcon] at hms
      have hlen := congrArg List.length hms
      simp only [List.length_append] at hlen
      exact hrs (List.length_eq_zero.mp (by omega))
  · rintro ⟨⟨t, ht⟩, hne⟩
    have htne : t ≠ [] := by
      intro hcon
      rw [hcon, List.append_nil] at ht
      exact hne ht
    rw [← ht, joinChars_append ks t hk htne]
    exact ⟨joinChars t, by simp⟩

/-- Mapping an injective function preserves and reflects list-prefixes. -/
theorem map_pre_iff {α β : Type} {f : α → β} (hf : Function.Injective f) :
    ∀ (xs ys : List α), (xs.map f <+: ys.map f) ↔ xs <+: ys
  | [], ys => by simp
  | x :: xs, [] => by
    constructor
    · intro h
      exact absurd h.length_le (by simp)
    · intro h
      exact absurd h.length_le (by simp)
  | x :: xs, y :: ys => by
    simp only [List.map_cons, List.cons_prefix_cons]
    constructor
    · rintro ⟨h1, h2⟩
      exact ⟨hf h1, (map_pre_iff hf xs ys).1 h2⟩
    · rintro ⟨h1, h2⟩
      exact ⟨by rw [h1], (map_pre_iff hf xs ys).2 h2⟩

theorem string_data_inj : Function.Injective String.data := by
  intro a b h
  exact String.ext h

theorem sPre_iff (p s : String) : sPre p s = true ↔ p.data <+: s.data := by
  simp [sPre, List.isPrefixOf_iff_prefix]

theorem sSuf_iff (p s : String) : sSuf p s = true ↔ p.data <:+ s.data := by
  simp [sSuf, List.isSuffixOf_iff_suffix]

theorem joinKeys_data (ks : List String) : (joinKeys ks).data = joinChars (ks.map String.data) :=
  rfl

theorem sep_string_data : ("/" : String).data = ['/'] := rfl

/-! ## Tree-level lemmas -/

theorem mem_keyPathsList {ms : List String} : ∀ {cs : List (String × ModeTree)},
    ms ∈ keyPathsList cs ↔ ∃ k t p, (k, t) ∈ cs ∧ p ∈ t.keyPaths ∧ ms = k :: p := by
  intro cs
  induction cs with
  | nil => simp [keyPathsList]
  | cons kt rest ih =>
    simp only [keyPathsList, List.mem_append, List.mem_map, ih]
    constructor
    · rintro (⟨p, hp, rfl⟩ | ⟨k, t, p, hmem, hp, rfl⟩)
      · exact ⟨kt.1, kt.2, p, by simp, hp, rfl⟩
      · exact ⟨k, t, p, by simp [hmem], hp, rfl⟩
    · rintro ⟨k, t, p, hmem, hp, rfl⟩
      rcases List.mem_cons.mp hmem with heq | hmem2
      · exact Or.inl ⟨p, by rw [← heq]; exact hp, by rw [← heq]⟩
      · exact Or.inr ⟨k, t, p, hmem2, hp, rfl⟩

theorem wfTree_node {cs : List (String × ModeTree)} (h : wfTree (.node cs) = true) :
    cs ≠ [] ∧ keysNodup (cs.map Prod.fst) = true ∧ wfChildren cs = true := by
  rw [wfTree] at h
  simp only [Bool.and_eq_true, Bool.not_eq_true'] at h
  refine ⟨?_, h.1.2, h.2⟩
  intro hcon
  rw [hcon] at h
  simp at h

theorem wfChildren_mem : ∀ {cs : List (String × ModeTree)} {k : String} {t : ModeTree},
    wfChildren cs = true → (k, t) ∈ cs → wfKey k = true ∧ wfTree t = true := by
  intro cs
  induction cs with
  | nil =>
    intro k t _ hmem
    simp at hmem
  | cons kt rest ih =>
    intro k t hw hmem
    rw [wfChildren] at hw
    simp only [Bool.and_eq_true] at hw
    rcases List.mem_cons.mp hmem with heq | h2
    · rw [← heq] at hw
      exact ⟨hw.1.1, hw.1.2⟩
    · exact ih hw.2 h2

theorem lookupChild_mem : ∀ {cs : List (String × ModeTree)} {k : String} {t : ModeTree},
    lookupChild k cs = some t → (k, t) ∈ cs := by
  intro cs
  induction cs with
  | nil =>
    intro k t h
    simp [lookupChild] at h
  | cons kt rest ih =>
    intro k t h
    rw [lookupChild] at h
    by_cases hk : (kt.1 == k) = true
    · rw [if_pos hk] at h
      injection h with h
      have : kt = (k, t) := by
        obtain ⟨a, b⟩ := kt
        simp only [Prod.mk.injEq]
        exact ⟨beq_iff_eq.mp hk, h⟩
      rw [← this]
      exact List.mem_cons_self kt rest
    · rw [if_neg hk] at h
      exact List.mem_cons_of_mem _ (ih h)

theorem mem_lookupChild : ∀ {cs : List (String × ModeTree)} {k : String} {t : ModeTree},
    keysNodup (cs.map Prod.fst) = true → (k, t) ∈ cs → lookupChild k cs = some t := by
  intro cs
  induction cs with
  | nil =>
    intro k t _ hmem
    simp at hmem
  | cons kt rest ih =>
    intro k t hnd hmem
    rw [List.map_cons, keysNodup] at hnd
    simp only [Bool.and_eq_true, Bool.not_eq_true'] at hnd
    rw [lookupChild]
    rcases List.mem_cons.mp hmem with heq | h2
    · rw [← heq]
      simp
    · have hne : (kt.1 == k) = false := by
        apply beq_eq_false_iff_ne.mpr
        intro hcon
        have hkmem : k ∈ rest.map Prod.fst := List.mem_map.mpr ⟨(k, t), h2, rfl⟩
        rw [hcon] at hnd
        have hc : (rest.map Prod.fst).contains k = true := List.elem_iff.mpr hkmem
        rw [hnd.1] at hc
        cases hc
      rw [if_neg (by simp [hne])]
      exact ih hnd.2 h2

theorem subtreeAt_append : ∀ (n : List String) (t : ModeTree) (m : List String),
    subtreeAt t (n ++ m) = (subtreeAt t n).bind (fun t2 => subtreeAt t2 m)
  | [], t, m => by simp [subtreeAt]
  | k :: n, t, m => by
    cases t with
    | leaf => simp [subtreeAt]
    | node cs =>
      simp only [List.cons_append, subtreeAt]
      cases hlk : lookupChild k cs with
      | none => simp
      | some t2 => exact subtreeAt_append n t2 m

theorem wf_subtreeAt : ∀ (n : List String) (t t2 : ModeTree), wfTree t = true →
    subtreeAt t n = some t2 → wfTree t2 = true
  | [], t, t2, hw, h => by
    rw [subtreeAt] at h
    injection h with h
    rw [← h]
    exact hw
  | k :: n, t, t2, hw, h => by
    cases t with
    | leaf => rw [subtreeAt] at h; cases h
    | node cs =>
      rw [subtreeAt] at h
      cases hlk : lookupChild k cs with
      | none => rw [hlk] at h; cases h
      | some t3 =>
        rw [hlk] at h
        exact wf_subtreeAt n t3 t2 (wfChildren_mem (wfTree_node hw).2.2 (lookupChild_mem hlk)).2 h

theorem paths_key_wf : ∀ (ms : List String) (t : ModeTree), wfTree t = true →
    ms ∈ t.keyPaths → ∀ k ∈ ms, wfKey k = true
  | [], _, _, _ => by simp
  | k0 :: ms, t, hw, hmem => by
    cases t with
    | leaf =>
      rw [ModeTree.keyPaths] at hmem
      simp at hmem
    | node cs =>
      rw [ModeTree.keyPaths] at hmem
      obtain ⟨k, t2, p, hkt, hp, heq⟩ := mem_keyPathsList.mp hmem
      obtain ⟨rfl, rfl⟩ : k0 = k ∧ ms = p := by
        injection heq with h1 h2
        exact ⟨h1, h2⟩
      have hwc := (wfTree_node hw).2.2
      obtain ⟨hk, ht2⟩ := wfChildren_mem hwc hkt
      intro x hx
      rcases List.mem_cons.mp hx with rfl | hx2
      · exact hk
      · exact paths_key_wf ms t2 ht2 hp x hx2

theorem paths_iff_leafAt : ∀ (ms : List String) (t : ModeTree), wfTree t = true →
    (ms ∈ t.keyPaths ↔ subtreeAt t ms = some .leaf)
  | [], t, hw => by
    cases t with
    | leaf => simp [ModeTree.keyPaths, subtreeAt]
    | node cs =>
      rw [ModeTree.keyPaths, subtreeAt]
      constructor
      · intro hmem
        obtain ⟨k, t2, p, _, _, heq⟩ := mem_keyPathsList.mp hmem
        cases heq
      · intro h
        injection h with h
        cases h
  | k0 :: ms, t, hw => by
    cases t with
    | leaf =>
      rw [ModeTree.keyPaths, subtreeAt]
      simp
    | node cs =>
      have hnd := (wfTree_node hw).2.1
      have hwc := (wfTree_node hw).2.2
      rw [ModeTree.keyPaths, subtreeAt]
      constructor
      · intro hmem
        obtain ⟨k, t2, p, hkt, hp, heq⟩ := mem_keyPathsList.mp hmem
        obtain ⟨rfl, rfl⟩ : k0 = k ∧ ms = p := by
          injection heq with h1 h2
          exact ⟨h1, h2⟩
        rw [mem_lookupChild hnd hkt]
        exact (paths_iff_leafAt ms t2 (wfChildren_mem hwc hkt).2).mp hp
      · intro h
        cases hlk : lookupChild k0 cs with
        | none => rw [hlk] at h; cases h
        | some t2 =>
          rw [hlk] at h
          have hkt := lookupChild_mem hlk
          exact mem_keyPathsList.mpr
            ⟨k0, t2, ms, hkt, (paths_iff_leafAt ms t2 (wfChildren_mem hwc hkt).2).mpr h, rfl⟩

theorem keyPaths_ne_nil : ∀ (t : ModeTree), wfTree t = true → t.keyPaths ≠ []
  | .leaf, _ => by simp [ModeTree.keyPaths]
  | .node [], hw => by simp [wfTree] at hw
  | .node ((k, t2) :: rest), hw => by
    have hw2 : wfTree t2 = true :=
      (wfChildren_mem (wfTree_node hw).2.2 (List.mem_cons_self (k, t2) rest)).2
    have h2 := keyPaths_ne_nil t2 hw2
    rw [ModeTree.keyPaths, keyPathsList]
    intro hcon
    rcases List.append_eq_nil.mp hcon with ⟨h3, _⟩
    exact h2 (by simpa using h3)

theorem mem_keyPaths_ne_nil {cs : List (String × ModeTree)} {ms : List String}
    (h : ms ∈ ModeTree.keyPaths (.node cs)) : ms ≠ [] := by
  rw [ModeTree.keyPaths] at h
  obtain ⟨k, t, p, _, _, rfl⟩ := mem_keyPathsList.mp h
  simp

theorem good_of_wf {ms : List String} (h : ∀ k ∈ ms, wfKey k = true) :
    GoodKeysC (ms.map String.data) := by
  intro kd hkd
  obtain ⟨k, hk, rfl⟩ := List.mem_map.mp hkd
  have hwk := h k hk
  rw [wfKey] at hwk
  simp only [Bool.and_eq_true, Bool.not_eq_true', beq_eq_false_iff_ne, ne_eq,
    List.all_eq_true] at hwk
  constructor
  · intro hcon
    exact hwk.1 (String.ext (by rw [hcon]))
  · intro c hc
    exact hwk.2 c hc

/-! ## Key-level characterization of match and next -/

theorem joinKeys_inj {qs ms : List String} (hgq : GoodKeysC (qs.map String.data))
    (hgm : GoodKeysC (ms.map String.data)) (hq : qs ≠ []) (hm : ms ≠ [])
    (h : joinKeys qs = joinKeys ms) : qs = ms := by
  have hd : joinChars (qs.map String.data) = joinChars (ms.map String.data) :=
    congrArg String.data h
  have hmap := joinChars_inj _ _ hgq hgm (by simpa using hq) (by simpa using hm) hd
  exact List.map_injective_iff.mpr string_data_inj hmap

theorem joinChars_sep_suf (ks ls : List (List Char)) (hgk : GoodKeysC ks)
    (hgl : GoodKeysC ls) (hk : ks ≠ []) (_hl : ls ≠ []) :
    ('/' :: joinChars ks) <:+ joinChars ls ↔ ks <:+ ls ∧ ks ≠ ls := by
  constructor
  · rintro ⟨t, ht⟩
    obtain ⟨qs, rs, hms, hqs, hrs, hu, hv⟩ := joinChars_split ls hgl t (joinChars ks) ht
    have hkr : ks = rs :=
      joinChars_inj ks rs hgk (fun x hx => hgl x (by rw [hms]; simp [hx])) hk hrs hv
    constructor
    · exact ⟨qs, by rw [hms, hkr]⟩
    · intro hcon
      rw [← hcon, ← hkr] at hms
      have hlen := congrArg List.length hms
      simp only [List.length_append] at hlen
      exact hqs (List.length_eq_zero.mp (by omega))
  · rintro ⟨⟨t, ht⟩, hne⟩
    have htne : t ≠ [] := by
      intro hcon
      rw [hcon, List.nil_append] at ht
      exact hne ht
    rw [← ht, joinChars_append t ks htne hk]
    exact ⟨joinChars t, rfl⟩

theorem map_suf_iff {α β : Type} {f : α → β} (hf : Function.Injective f)
    (xs ys : List α) : (xs.map f <:+ ys.map f) ↔ xs <:+ ys := by
  rw [← List.reverse_prefix, ← List.map_reverse, ← List.map_reverse,
    map_pre_iff hf, List.reverse_prefix]

theorem macroMatch_join {qs ms : List String} (hgq : GoodKeysC (qs.map String.data))
    (hgm : GoodKeysC (ms.map String.data)) (hq : qs ≠ []) (hm : ms ≠ []) :
    macroMatch (joinKeys qs) (joinKeys ms) = true ↔ qs <+: ms := by
  rw [macroMatch, Bool.or_eq_true, beq_iff_eq, sPre_iff]
  have hdata : (joinKeys qs ++ "/").data = joinChars (qs.map String.data) ++ ['/'] := by
    rw [String.data_append, sep_string_data, joinKeys_data]
  rw [hdata, joinKeys_data,
    joinChars_sep_pre _ _ hgq hgm (by simpa using hq) (by simpa using hm)]
  constructor
  · rintro (heq | ⟨hp, _⟩)
    · rw [joinKeys_inj hgm hgq hm hq heq]
    · exact (map_pre_iff string_data_inj qs ms).1 hp
  · intro hpre
    by_cases heq : qs = ms
    · exact Or.inl (by rw [heq])
    · refine Or.inr ⟨(map_pre_iff string_data_inj qs ms).2 hpre, ?_⟩
      intro hcon
      exact heq (List.map_injective_iff.mpr string_data_inj hcon)

theorem subMatch_join {rs ms : List String} (hgr : GoodKeysC (rs.map String.data))
    (hgm : GoodKeysC (ms.map String.data)) (hr : rs ≠ []) (hm : ms ≠ []) :
    subMatch (joinKeys rs) (joinKeys ms) = true ↔ rs <:+ ms := by
  rw [subMatch, Bool.or_eq_true, beq_iff_eq, sSuf_iff]
  have hdata : (("/" : String) ++ joinKeys rs).data =
      '/' :: joinChars (rs.map String.data) := by
    rw [String.data_append, sep_string_data, joinKeys_data, List.singleton_append]
  rw [hdata, joinKeys_data,
    joinChars_sep_suf _ _ hgr hgm (by simpa using hr) (by simpa using hm)]
  constructor
  · rintro (heq | ⟨hp, _⟩)
    · rw [joinKeys_inj hgm hgr hm hr heq]
    · exact (map_suf_iff string_data_inj rs ms).1 hp
  · intro hsuf
    by_cases heq : rs = ms
    · exact Or.inl (by rw [heq])
    · refine Or.inr ⟨(map_suf_iff string_data_inj rs ms).2 hsuf, ?_⟩
      intro hcon
      exact heq (List.map_injective_iff.mpr string_data_inj hcon)

theorem macroMatch_self_append (qs rs : List String) (hq : qs ≠ []) :
    macroMatch (joinKeys qs) (joinKeys (qs ++ rs)) = true := by
  cases rs with
  | nil => simp [macroMatch]
  | cons r rs2 =>
    rw [macroMatch, Bool.or_eq_true, sPre_iff]
    right
    rw [String.data_append, sep_string_data, joinKeys_data, joinKeys_data, List.map_append,
      joinChars_append _ _ (by simpa using hq) (by simp)]
    exact ⟨joinChars ((r :: rs2).map String.data), by simp⟩

theorem subMatch_self_append (qs rs : List String) (hq : qs ≠ []) (hr : rs ≠ []) :
    subMatch (joinKeys rs) (joinKeys (qs ++ rs)) = true := by
  rw [subMatch, Bool.or_eq_true, sSuf_iff]
  right
  rw [String.data_append, sep_string_data, joinKeys_data, joinKeys_data, List.map_append,
    joinChars_append _ _ (by simpa using hq) (by simpa using hr), List.singleton_append]
  exact ⟨joinChars (qs.map String.data), rfl⟩

theorem string_length_data (s : String) : s.length = s.data.length := rfl

theorem macroNext_replace (t : ModeTree) (pk p2k sk : List String)
    (hp : pk ≠ []) (hp2 : p2k ≠ [])
    (hmem2 : (p2k ++ sk) ∈ ModeTree.keyPaths t) :
    macroNext t (joinKeys pk) (joinKeys p2k) (joinKeys (pk ++ sk)) =
      .ok (joinKeys (p2k ++ sk)) := by
  have hr : joinKeys p2k ++ sdrop (joinKeys (pk ++ sk)) (joinKeys pk).length =
      joinKeys (p2k ++ sk) := by
    apply String.ext
    rw [String.data_append]
    show (joinKeys p2k).data ++ ((joinKeys (pk ++ sk)).data.drop (joinKeys pk).length) =
      (joinKeys (p2k ++ sk)).data
    cases sk with
    | nil =>
      rw [List.append_nil, List.append_nil, string_length_data, List.drop_length,
        List.append_nil]
    | cons s sk2 =>
      rw [string_length_data]
      rw [joinKeys_data, joinKeys_data, joinKeys_data, joinKeys_data]
      rw [List.map_append, List.map_append]
      rw [joinChars_append _ _ (by simpa using hp) (by simp),
        joinChars_append _ _ (by simpa using hp2) (by simp)]
      rw [List.drop_left]
  rw [macroNext, if_pos (macroMatch_self_append pk sk hp), hr,
    if_pos (show joinKeys (p2k ++ sk) ∈ modesOf t from List.mem_map_of_mem joinKeys hmem2)]

theorem subNext_replace (t : ModeTree) (pk sk s2k : List String)
    (hpk : pk ≠ []) (hsk : sk ≠ []) (hs2 : s2k ≠ [])
    (hmem2 : (pk ++ s2k) ∈ ModeTree.keyPaths t) :
    subNext t (joinKeys sk) (joinKeys s2k) (joinKeys (pk ++ sk)) =
      .ok (joinKeys (pk ++ s2k)) := by
  have hr : sdropRight (joinKeys (pk ++ sk)) (joinKeys sk).length ++ joinKeys s2k =
      joinKeys (pk ++ s2k) := by
    apply String.ext
    rw [String.data_append]
    show ((joinKeys (pk ++ sk)).data.take
        ((joinKeys (pk ++ sk)).data.length - (joinKeys sk).length)) ++ (joinKeys s2k).data =
      (joinKeys (pk ++ s2k)).data
    rw [string_length_data]
    rw [joinKeys_data, joinKeys_data, joinKeys_data, joinKeys_data]
    rw [List.map_append, List.map_append]
    rw [joinChars_append _ _ (by simpa using hpk) (by simpa using hsk),
      joinChars_append _ _ (by simpa using hpk) (by simpa using hs2)]
    have hlen : (joinChars (pk.map String.data) ++ '/' :: joinChars (sk.map String.data)).length -
        (joinChars (sk.map String.data)).length =
        (joinChars (pk.map String.data)).length + 1 := by
      simp only [List.length_append, List.length_cons]
      omega
    rw [hlen, List.take_append_eq_append_take, List.take_of_length_le (by omega),
      List.take_cons (by omega)]
    simp
  rw [subNext, if_pos (subMatch_self_append pk sk hpk hsk), hr,
    if_pos (show joinKeys (pk ++ s2k) ∈ modesOf t from List.mem_map_of_mem joinKeys hmem2)]

theorem macroMatch_split {ms : List String} {p : String}
    (hg : ∀ k ∈ ms, wfKey k = true) (hm : ms ≠ [])
    (h : macroMatch p (joinKeys ms) = true) :
    ∃ qs, qs ≠ [] ∧ qs <+: ms ∧ joinKeys qs = p := by
  rw [macroMatch, Bool.or_eq_true, beq_iff_eq, sPre_iff] at h
  rcases h with heq | hpre
  · exact ⟨ms, hm, List.prefix_refl ms, heq⟩
  · rw [String.data_append, sep_string_data, joinKeys_data] at hpre
    obtain ⟨t, ht⟩ := hpre
    rw [List.append_assoc, List.singleton_append] at ht
    obtain ⟨qsd, rsd, hms, hqs, hrs, hu, hv⟩ :=
      joinChars_split (ms.map String.data) (good_of_wf hg) p.data t ht
    refine ⟨ms.take qsd.length, ?_, List.take_prefix _ _, ?_⟩
    · intro hcon
      rcases List.take_eq_nil_iff.mp hcon with hz | hz
      · exact hqs (List.length_eq_zero.mp hz)
      · exact hm hz
    · apply String.ext
      rw [joinKeys_data, List.map_take]
      have htake : (ms.map String.data).take qsd.length = qsd := by
        rw [hms, List.take_left]
      rw [htake, ← hu]

theorem subMatch_split {ms : List String} {s : String}
    (hg : ∀ k ∈ ms, wfKey k = true) (hm : ms ≠ [])
    (h : subMatch s (joinKeys ms) = true) :
    ∃ rs, rs ≠ [] ∧ rs <:+ ms ∧ joinKeys rs = s := by
  rw [subMatch, Bool.or_eq_true, beq_iff_eq, sSuf_iff] at h
  rcases h with heq | hsuf
  · exact ⟨ms, hm, List.suffix_refl ms, heq⟩
  · rw [String.data_append, sep_string_data, joinKeys_data, List.singleton_append] at hsuf
    obtain ⟨t, ht⟩ := hsuf
    obtain ⟨qsd, rsd, hms, hqs, hrs, hu, hv⟩ :=
      joinChars_split (ms.map String.data) (good_of_wf hg) t s.data ht
    refine ⟨ms.drop qsd.length, ?_, List.drop_suffix _ _, ?_⟩
    · intro hcon
      have hlen := congrArg List.length hcon
      have hms2 := congrArg List.length hms
      simp only [List.length_drop, List.length_map, List.length_append,
        List.length_nil] at hlen hms2
      have hrz : rsd.length ≠ 0 := fun hz => hrs (List.length_eq_zero.mp hz)
      omega
    · apply String.ext
      rw [joinKeys_data, List.map_drop]
      have hdrop : (ms.map String.data).drop qsd.length = rsd := by
        rw [hms, List.drop_left]
      rw [hdrop, ← hv]

theorem find?_of_unique {α : Type} {p : α → Bool} {a : α} :
    ∀ {l : List α}, a ∈ l → p a = true → (∀ x ∈ l, p x = true → x = a) →
      l.find? p = some a
  | [], hmem, _, _ => absurd hmem (by simp)
  | x :: xs, hmem, hfa, huniq => by
    by_cases hx : p x = true
    · rw [List.find?_cons_of_pos _ hx, huniq x (List.mem_cons_self x xs) hx]
    · rw [List.find?_cons_of_neg _ hx]
      have hmem2 : a ∈ xs := by
        rcases List.mem_cons.mp hmem with rfl | h2
        · exact absurd hfa hx
        · exact h2
      exact find?_of_unique hmem2 hfa (fun y hy hpy => huniq y (List.mem_cons_of_mem _ hy) hpy)

theorem findSome?_of_unique {α β : Type} {f : α → Option β} {a : α} {v : β} :
    ∀ {l : List α}, a ∈ l → f a = some v → (∀ x ∈ l, x ≠ a → f x = none) →
      l.findSome? f = some v
  | [], hmem, _, _ => absurd hmem (by simp)
  | x :: xs, hmem, hfa, hother => by
    rw [List.findSome?_cons]
    by_cases hx : x = a
    · rw [hx, hfa]
    · rw [hother x (List.mem_cons_self x xs) hx]
      have hmem2 : a ∈ xs := by
        rcases List.mem_cons.mp hmem with heq | h2
        · exact absurd heq.symm hx
        · exact h2
      exact findSome?_of_unique hmem2 hfa
        (fun y hy hny => hother y (List.mem_cons_of_mem _ hy) hny)

/-! ## Claim theorems -/

/-- C1: for every Mode Tree Definition with at least one root key, the Tree
Compiler (`Machine`) succeeds and produces exactly the set of root-to-leaf
path strings, each formed by joining the key sequence from the root with
`/`; in particular the set is nonempty, and the documented four-leaf chess
tree compiles to exactly its four modes. -/
theorem c1_tree_compiler :
    (∀ cs : List (String × ModeTree), cs ≠ [] → wfTree (.node cs) = true →
      Machine cs = .ok (modesOf (.node cs)) ∧ modesOf (.node cs) ≠ [] ∧
      (∀ m, m ∈ modesOf (.node cs) ↔
        ∃ ks, subtreeAt (.node cs) ks = some .leaf ∧ m = joinKeys ks)) ∧
    Machine chessChildren =
      .ok ["userPlaying/piecePicking", "userPlaying/pieceDumping",
        "opponentPlaying/piecePicking", "opponentPlaying/pieceDumping"] := by
  constructor
  · intro cs hne hw
    refine ⟨?_, ?_, ?_⟩
    · rw [Machine, if_neg (by simpa [List.isEmpty_iff] using hne)]
    · intro hcon
      rw [modesOf] at hcon
      exact keyPaths_ne_nil _ hw (List.map_eq_nil_iff.mp hcon)
    · intro m
      rw [modesOf]
      constructor
      · intro hmem
        obtain ⟨ks, hks, rfl⟩ := List.mem_map.mp hmem
        exact ⟨ks, (paths_iff_leafAt ks _ hw).mp hks, rfl⟩
      · rintro ⟨ks, hks, rfl⟩
        exact List.mem_map_of_mem joinKeys ((paths_iff_leafAt ks _ hw).mpr hks)
  · decide

/-- Witness for C1: the hypotheses hold at the documented chess tree and the
universal part applies to it. -/
theorem c1_tree_compiler_witness :
    chessChildren ≠ [] ∧ wfTree (.node chessChildren) = true ∧
    (Machine chessChildren = .ok (modesOf (.node chessChildren)) ∧
      modesOf (.node chessChildren) ≠ [] ∧
      (∀ m, m ∈ modesOf (.node chessChildren) ↔
        ∃ ks, subtreeAt (.node chessChildren) ks = some .leaf ∧ m = joinKeys ks)) :=
  ⟨by simp [chessChildren], by decide,
    c1_tree_compiler.1 chessChildren (by simp [chessChildren]) (by decide)⟩

/-- C4: whenever `next` on a macro or sub handle returns without error, the
returned string is a member of the compiled flat mode set — no partial or
fabricated path is ever produced as a Mode. -/
theorem c4_next_closed :
    ∀ (t : ModeTree) (p p2 m r : String),
      (macroNext t p p2 m = .ok r → r ∈ modesOf t) ∧
      (subNext t p p2 m = .ok r → r ∈ modesOf t) := by
  intro t p p2 m r
  constructor
  · intro h
    rw [macroNext] at h
    by_cases h1 : macroMatch p m = true
    · rw [if_pos h1] at h
      by_cases h2 : p2 ++ sdrop m p.length ∈ modesOf t
      · rw [if_pos h2] at h
        injection h with h
        rw [← h]
        exact h2
      · rw [if_neg h2] at h
        cases h
    · rw [if_neg h1] at h
      cases h
  · intro h
    rw [subNext] at h
    by_cases h1 : subMatch p m = true
    · rw [if_pos h1] at h
      by_cases h2 : sdropRight m p.length ++ p2 ∈ modesOf t
      · rw [if_pos h2] at h
        injection h with h
        rw [← h]
        exact h2
      · rw [if_neg h2] at h
        cases h
    · rw [if_neg h1] at h
      cases h

/-- Witness for C4 at the documented chess transitions. -/
theorem c4_next_closed_witness :
    macroNext chessTree "userPlaying" "opponentPlaying" "userPlaying/piecePicking" =
        .ok "opponentPlaying/piecePicking" ∧
    "opponentPlaying/piecePicking" ∈ modesOf chessTree ∧
    subNext chessTree "piecePicking" "pieceDumping" "userPlaying/piecePicking" =
        .ok "userPlaying/pieceDumping" ∧
    "userPlaying/pieceDumping" ∈ modesOf chessTree := by
  refine ⟨by decide, ?_, by decide, ?_⟩
  · exact (c4_next_closed chessTree "userPlaying" "opponentPlaying" "userPlaying/piecePicking"
      "opponentPlaying/piecePicking").1 (by decide)
  · exact (c4_next_closed chessTree "piecePicking" "pieceDumping" "userPlaying/piecePicking"
      "userPlaying/pieceDumping").2 (by decide)

/-- C7: `next` raises InvalidTransitionError exactly when the supplied mode
does not match the handle's partial path or the substitution would not
yield a valid Mode of the tree; in all other cases it returns the
substituted Mode; and InvalidTransitionError is the only error it raises.
Both for macro and sub handles. -/
theorem c7_next_error_iff :
    ∀ (t : ModeTree) (p p2 m : String),
      (macroNext t p p2 m = .error .invalidTransition ↔
        (macroMatch p m = false ∨ p2 ++ sdrop m p.length ∉ modesOf t)) ∧
      (macroMatch p m = true → p2 ++ sdrop m p.length ∈ modesOf t →
        macroNext t p p2 m = .ok (p2 ++ sdrop m p.length)) ∧
      (∀ e, macroNext t p p2 m = .error e → e = .invalidTransition) ∧
      (subNext t p p2 m = .error .invalidTransition ↔
        (subMatch p m = false ∨ sdropRight m p.length ++ p2 ∉ modesOf t)) ∧
      (subMatch p m = true → sdropRight m p.length ++ p2 ∈ modesOf t →
        subNext t p p2 m = .ok (sdropRight m p.length ++ p2)) ∧
      (∀ e, subNext t p p2 m = .error e → e = .invalidTransition) := by
  intro t p p2 m
  refine ⟨?_, ?_, ?_, ?_, ?_, ?_⟩
  · rw [macroNext]
    by_cases h1 : macroMatch p m = true
    · rw [if_pos h1]
      by_cases h2 : p2 ++ sdrop m p.length ∈ modesOf t
      · rw [if_pos h2]
        simp [h1, h2]
      · rw [if_neg h2]
        simp [h2]
    · rw [if_neg h1]
      simp [Bool.not_eq_true] at h1
      simp [h1]
  · intro h1 h2
    rw [macroNext, if_pos h1, if_pos h2]
  · intro e h
    rw [macroNext] at h
    by_cases h1 : macroMatch p m = true
    · rw [if_pos h1] at h
      by_cases h2 : p2 ++ sdrop m p.length ∈ modesOf t
      · rw [if_pos h2] at h
        cases h
      · rw [if_neg h2] at h
        injection h with h
        exact h.symm
    · rw [if_neg h1] at h
      injection h with h
      exact h.symm
  · rw [subNext]
    by_cases h1 : subMatch p m = true
    · rw [if_pos h1]
      by_cases h2 : sdropRight m p.length ++ p2 ∈ modesOf t
      · rw [if_pos h2]
        simp [h1, h2]
      · rw [if_neg h2]
        simp [h2]
    · rw [if_neg h1]
      simp [Bool.not_eq_true] at h1
      simp [h1]
  · intro h1 h2
    rw [subNext, if_pos h1, if_pos h2]
  · intro e h
    rw [subNext] at h
    by_cases h1 : subMatch p m = true
    · rw [if_pos h1] at h
      by_cases h2 : sdropRight m p.length ++ p2 ∈ modesOf t
      · rw [if_pos h2] at h
        cases h
      · rw [if_neg h2] at h
        injection h with h
        exact h.symm
    · rw [if_neg h1] at h
      injection h with h
      exact h.symm

/-- Witness for C7: both error cases and the success case are realized on the
chess tree. -/
theorem c7_next_error_iff_witness :
    (macroMatch "userPlaying" "userPlaying/piecePicking" = true) ∧
    ("opponentPlaying" ++ sdrop "userPlaying/piecePicking" ("userPlaying" : String).length ∈
      modesOf chessTree) ∧
    macroNext chessTree "userPlaying" "opponentPlaying" "userPlaying/piecePicking" =
      .ok ("opponentPlaying" ++ sdrop "userPlaying/piecePicking"
        ("userPlaying" : String).length) ∧
    (macroNext chessTree "userPlaying" "opponentPlaying" "opponentPlaying/piecePicking" =
      .error .invalidTransition ↔
      (macroMatch "userPlaying" "opponentPlaying/piecePicking" = false ∨
        "opponentPlaying" ++ sdrop "opponentPlaying/piecePicking"
          ("userPlaying" : String).length ∉ modesOf chessTree)) := by
  refine ⟨by decide, by decide, ?_, ?_⟩
  · exact (c7_next_error_iff chessTree "userPlaying" "opponentPlaying"
      "userPlaying/piecePicking").2.1 (by decide) (by decide)
  · exact (c7_next_error_iff chessTree "userPlaying" "opponentPlaying"
      "opponentPlaying/piecePicking").1

/-- C8: macro/sub handle construction fails with InvalidPathError exactly for
partial paths matching no Mode, succeeds for partial paths shared by at
least one Mode, and `macroModes("nonexistentKey")` against the chess tree
fails with InvalidPathError. -/
theorem c8_handle_validation :
    (∀ (t : ModeTree) (p : String),
      (macroHandle t p = .error .invalidPath ↔ ∀ m ∈ modesOf t, macroMatch p m = false) ∧
      ((∃ m ∈ modesOf t, macroMatch p m = true) → macroHandle t p = .ok p) ∧
      (subHandle t p = .error .invalidPath ↔ ∀ m ∈ modesOf t, subMatch p m = false) ∧
      ((∃ m ∈ modesOf t, subMatch p m = true) → subHandle t p = .ok p)) ∧
    macroHandle chessTree "nonexistentKey" = .error .invalidPath := by
  constructor
  · intro t p
    refine ⟨?_, ?_, ?_, ?_⟩
    · rw [macroHandle]
      by_cases h : ∃ m ∈ modesOf t, macroMatch p m = true
      · rw [if_pos h]
        constructor
        · intro hcon
          cases hcon
        · intro hall
          obtain ⟨m, hm, hmm⟩ := h
          rw [hall m hm] at hmm
          cases hmm
      · rw [if_neg h]
        constructor
        · intro _ m hm
          by_contra hc
          exact h ⟨m, hm, by simpa using hc⟩
        · intro _
          rfl
    · intro h
      rw [macroHandle, if_pos h]
    · rw [subHandle]
      by_cases h : ∃ m ∈ modesOf t, subMatch p m = true
      · rw [if_pos h]
        constructor
        · intro hcon
          cases hcon
        · intro hall
          obtain ⟨m, hm, hmm⟩ := h
          rw [hall m hm] at hmm
          cases hmm
      · rw [if_neg h]
        constructor
        · intro _ m hm
          by_contra hc
          exact h ⟨m, hm, by simpa using hc⟩
        · intro _
          rfl
    · intro h
      rw [subHandle, if_pos h]
  · decide

/-- Witness for C8: construction succeeds on a shared prefix and suffix of
the chess tree. -/
theorem c8_handle_validation_witness :
    (∃ m ∈ modesOf chessTree, macroMatch "userPlaying" m = true) ∧
    macroHandle chessTree "userPlaying" = .ok "userPlaying" ∧
    (∃ m ∈ modesOf chessTree, subMatch "piecePicking" m = true) ∧
    subHandle chessTree "piecePicking" = .ok "piecePicking" :=
  ⟨by decide, (c8_handle_validation.1 chessTree "userPlaying").2.1 (by decide), by decide,
    (c8_handle_validation.1 chessTree "piecePicking").2.2.2 (by decide)⟩

/-- C2: for a valid Mode of a well-formed tree, macro `match` holds exactly
on the documented string condition (the mode equals the partial path or
begins with it followed by `/`), which holds exactly for the ancestor
key-sequence joins of the mode: every ancestor partial path matches and
every other string does not.  `match` is a total Boolean function, so it
never throws. -/
theorem c2_macro_match :
    ∀ (cs : List (String × ModeTree)) (ms : List String) (p : String),
      wfTree (.node cs) = true → ms ∈ ModeTree.keyPaths (.node cs) →
      (macroMatch p (joinKeys ms) = true ↔
        (joinKeys ms = p ∨ (p ++ "/").data <+: (joinKeys ms).data)) ∧
      (macroMatch p (joinKeys ms) = true ↔
        ∃ qs, qs ≠ [] ∧ qs <+: ms ∧ joinKeys qs = p) := by
  intro cs ms p hw hmem
  constructor
  · rw [macroMatch, Bool.or_eq_true, beq_iff_eq, sPre_iff]
  · constructor
    · exact fun h => macroMatch_split (paths_key_wf ms _ hw hmem) (mem_keyPaths_ne_nil hmem) h
    · rintro ⟨qs, hqne, ⟨rs, rfl⟩, rfl⟩
      exact macroMatch_self_append qs rs hqne

/-- Witness for C2 at the chess tree, mode `userPlaying/piecePicking` and
partial path `userPlaying`. -/
theorem c2_macro_match_witness :
    (macroMatch "userPlaying" (joinKeys ["userPlaying", "piecePicking"]) = true ↔
      (joinKeys ["userPlaying", "piecePicking"] = "userPlaying" ∨
        ("userPlaying" ++ "/").data <+: (joinKeys ["userPlaying", "piecePicking"]).data)) ∧
    (macroMatch "userPlaying" (joinKeys ["userPlaying", "piecePicking"]) = true ↔
      ∃ qs, qs ≠ [] ∧ qs <+: ["userPlaying", "piecePicking"] ∧ joinKeys qs = "userPlaying") :=
  c2_macro_match chessChildren ["userPlaying", "piecePicking"] "userPlaying"
    (by decide) (by decide)

/-- C3: macro `next` with a valid replacement prefix of the same depth
returns exactly the mode with the leading segment replaced by the new
prefix and the remaining suffix preserved; concretely,
`macroModes("userPlaying").next("opponentPlaying", "userPlaying/piecePicking")`
returns `opponentPlaying/piecePicking`. -/
theorem c3_macro_next_replace :
    (∀ (t : ModeTree) (pk p2k sk : List String),
      pk ≠ [] → p2k ≠ [] → pk.length = p2k.length →
      (pk ++ sk) ∈ ModeTree.keyPaths t → (p2k ++ sk) ∈ ModeTree.keyPaths t →
      macroNext t (joinKeys pk) (joinKeys p2k) (joinKeys (pk ++ sk)) =
        .ok (joinKeys (p2k ++ sk))) ∧
    macroNext chessTree "userPlaying" "opponentPlaying" "userPlaying/piecePicking" =
      .ok "opponentPlaying/piecePicking" := by
  constructor
  · intro t pk p2k sk hp hp2 _ _ hmem2
    exact macroNext_replace t pk p2k sk hp hp2 hmem2
  · decide

/-- Witness for C3 at the chess tree with key sequences. -/
theorem c3_macro_next_replace_witness :
    macroNext chessTree (joinKeys ["userPlaying"]) (joinKeys ["opponentPlaying"])
        (joinKeys (["userPlaying"] ++ ["piecePicking"])) =
      .ok (joinKeys (["opponentPlaying"] ++ ["piecePicking"])) :=
  c3_macro_next_replace.1 chessTree ["userPlaying"] ["opponentPlaying"] ["piecePicking"]
    (by decide) (by decide) (by decide) (by decide) (by decide)

/-- C5: sub `match` holds iff the mode ends with `"/" + s` or equals `s`,
equivalently iff the partial path is a trailing key sequence of the mode;
sub `next` replaces the trailing segment preserving the leading portion
(failing when the result is not a valid Mode); and the documented chess
scenario holds. -/
theorem c5_sub_handle :
    (∀ (cs : List (String × ModeTree)) (ms : List String) (s : String),
      wfTree (.node cs) = true → ms ∈ ModeTree.keyPaths (.node cs) →
      (subMatch s (joinKeys ms) = true ↔
        (joinKeys ms = s ∨ ("/" ++ s).data <:+ (joinKeys ms).data)) ∧
      (subMatch s (joinKeys ms) = true ↔
        ∃ rs, rs ≠ [] ∧ rs <:+ ms ∧ joinKeys rs = s)) ∧
    (∀ (t : ModeTree) (pk sk s2k : List String),
      pk ≠ [] → sk ≠ [] → s2k ≠ [] →
      (pk ++ sk) ∈ ModeTree.keyPaths t → (pk ++ s2k) ∈ ModeTree.keyPaths t →
      subNext t (joinKeys sk) (joinKeys s2k) (joinKeys (pk ++ sk)) =
        .ok (joinKeys (pk ++ s2k))) ∧
    subMatch "piecePicking" "userPlaying/piecePicking" = true ∧
    subNext chessTree "piecePicking" "pieceDumping" "userPlaying/piecePicking" =
      .ok "userPlaying/pieceDumping" := by
  refine ⟨?_, ?_, by decide, by decide⟩
  · intro cs ms s hw hmem
    constructor
    · rw [subMatch, Bool.or_eq_true, beq_iff_eq, sSuf_iff]
    · constructor
      · exact fun h => subMatch_split (paths_key_wf ms _ hw hmem) (mem_keyPaths_ne_nil hmem) h
      · rintro ⟨rs, hrne, ⟨qs, rfl⟩, rfl⟩
        cases qs with
        | nil => simp [subMatch]
        | cons q qs2 => exact subMatch_self_append (q :: qs2) rs (by simp) hrne
  · intro t pk sk s2k hpk hsk hs2 _ hmem2
    exact subNext_replace t pk sk s2k hpk hsk hs2 hmem2

/-- Witness for C5: match characterization and replacement at the chess
tree. -/
theorem c5_sub_handle_witness :
    ((subMatch "piecePicking" (joinKeys ["userPlaying", "piecePicking"]) = true ↔
      (joinKeys ["userPlaying", "piecePicking"] = "piecePicking" ∨
        ("/" ++ "piecePicking").data <:+ (joinKeys ["userPlaying", "piecePicking"]).data)) ∧
     (subMatch "piecePicking" (joinKeys ["userPlaying", "piecePicking"]) = true ↔
      ∃ rs, rs ≠ [] ∧ rs <:+ ["userPlaying", "piecePicking"] ∧
        joinKeys rs = "piecePicking")) ∧
    subNext chessTree (joinKeys ["piecePicking"]) (joinKeys ["pieceDumping"])
        (joinKeys (["userPlaying"] ++ ["piecePicking"])) =
      .ok (joinKeys (["userPlaying"] ++ ["pieceDumping"])) :=
  ⟨c5_sub_handle.1 chessChildren ["userPlaying", "piecePicking"] "piecePicking"
      (by decide) (by decide),
    c5_sub_handle.2.1 chessTree ["userPlaying"] ["piecePicking"] ["pieceDumping"]
      (by decide) (by decide) (by decide) (by decide) (by decide)⟩

/-- C6 (amended): for macro handles `h1 = macroModes(p1)` and `h2 =
macroModes(p2)` over valid prefixes of equal depth and a mode `m` matching
`h1`, the transition `h1.next(p2, m)` succeeds, its result matches `h2`,
and the return leg through `h2` — `h2.next(p1, h1.next(p2, m))` — restores
`m` exactly.  (As literally stated, with the return leg through `h1`, the
claim fails; see the counterexample.) -/
theorem c6_macro_round_trip :
    ∀ (t : ModeTree) (pk p2k sk : List String),
      pk ≠ [] → p2k ≠ [] → pk.length = p2k.length →
      (pk ++ sk) ∈ ModeTree.keyPaths t → (p2k ++ sk) ∈ ModeTree.keyPaths t →
      macroNext t (joinKeys pk) (joinKeys p2k) (joinKeys (pk ++ sk)) =
        .ok (joinKeys (p2k ++ sk)) ∧
      macroMatch (joinKeys p2k) (joinKeys (p2k ++ sk)) = true ∧
      macroNext t (joinKeys p2k) (joinKeys pk) (joinKeys (p2k ++ sk)) =
        .ok (joinKeys (pk ++ sk)) := by
  intro t pk p2k sk hp hp2 _ hmem1 hmem2
  exact ⟨macroNext_replace t pk p2k sk hp hp2 hmem2,
    macroMatch_self_append p2k sk hp2,
    macroNext_replace t p2k pk sk hp2 hp hmem1⟩

/-- Counterexample to C6 as stated: on the chess tree with `p1 =
"userPlaying"`, `p2 = "opponentPlaying"`, `m = "userPlaying/piecePicking"`,
the inner transition succeeds, but the literal return leg `h1.next(p1,
h1.next(p2, m))` raises InvalidTransitionError instead of returning `m`:
the intermediate mode no longer matches `h1`'s own prefix. -/
theorem c6_round_trip_cex :
    macroNext chessTree "userPlaying" "opponentPlaying" "userPlaying/piecePicking" =
      .ok "opponentPlaying/piecePicking" ∧
    macroNext chessTree "userPlaying" "userPlaying" "opponentPlaying/piecePicking" =
      .error .invalidTransition ∧
    (Except.error MachineError.invalidTransition : Except MachineError String) ≠
      .ok "userPlaying/piecePicking" := by
  exact ⟨by decide, by decide, by decide⟩

/-- Witness for C6 (amended) at the chess tree. -/
theorem c6_macro_round_trip_witness :
    macroNext chessTree (joinKeys ["userPlaying"]) (joinKeys ["opponentPlaying"])
        (joinKeys (["userPlaying"] ++ ["piecePicking"])) =
      .ok (joinKeys (["opponentPlaying"] ++ ["piecePicking"])) ∧
    macroMatch (joinKeys ["opponentPlaying"])
        (joinKeys (["opponentPlaying"] ++ ["piecePicking"])) = true ∧
    macroNext chessTree (joinKeys ["opponentPlaying"]) (joinKeys ["userPlaying"])
        (joinKeys (["opponentPlaying"] ++ ["piecePicking"])) =
      .ok (joinKeys (["userPlaying"] ++ ["piecePicking"])) :=
  c6_macro_round_trip chessTree ["userPlaying"] ["opponentPlaying"] ["piecePicking"]
    (by decide) (by decide) (by decide) (by decide) (by decide)

/-- C10: sub `next` accepts a replacement suffix whose depth differs from
the handle's own suffix: whenever the leading portion followed by the new
suffix is a valid Mode, it returns that Mode; in the architectural tree,
replacing `wall/secondPoint` by `navigate` and `navigate` by
`wall/firstPoint` both work across depths. -/
theorem c10_sub_next_cross_depth :
    (∀ (t : ModeTree) (pk sk s2k : List String),
      pk ≠ [] → sk ≠ [] → s2k ≠ [] →
      (pk ++ sk) ∈ ModeTree.keyPaths t → (pk ++ s2k) ∈ ModeTree.keyPaths t →
      subNext t (joinKeys sk) (joinKeys s2k) (joinKeys (pk ++ sk)) =
        .ok (joinKeys (pk ++ s2k))) ∧
    subNext archTree "wall/secondPoint" "navigate" "root/planeView/wall/secondPoint" =
      .ok "root/planeView/navigate" ∧
    subNext archTree "navigate" "wall/firstPoint" "root/planeView/navigate" =
      .ok "root/planeView/wall/firstPoint" := by
  refine ⟨?_, by decide, by decide⟩
  intro t pk sk s2k hpk hsk hs2 _ hmem2
  exact subNext_replace t pk sk s2k hpk hsk hs2 hmem2

/-- Witness for C10: a cross-depth replacement on the architectural tree via
the universal statement. -/
theorem c10_sub_next_cross_depth_witness :
    subNext archTree (joinKeys ["wall", "secondPoint"]) (joinKeys ["navigate"])
        (joinKeys (["root", "planeView"] ++ ["wall", "secondPoint"])) =
      .ok (joinKeys (["root", "planeView"] ++ ["navigate"])) :=
  c10_sub_next_cross_depth.1 archTree ["root", "planeView"] ["wall", "secondPoint"]
    ["navigate"] (by decide) (by decide) (by decide) (by decide) (by decide)

/-! ## Mode Option Deriver lemmas -/

/-- Listed internal nodes do not nest: no reference is a strict ancestor of
another (the documented usage lists parallel branch points, e.g. the `wall`
nodes under `planeView` and `view3D`). -/
def noNesting (refs : List (List String)) : Bool :=
  refs.all fun a => refs.all fun b => (!(a.isPrefixOf b)) || (a == b)

theorem noNesting_eq {refs : List (List String)} (h : noNesting refs = true)
    {a b : List String} (ha : a ∈ refs) (hb : b ∈ refs) (hab : a <+: b) : a = b := by
  rw [noNesting, List.all_eq_true] at h
  have h2 := h a ha
  rw [List.all_eq_true] at h2
  have h3 := h2 b hb
  rw [Bool.or_eq_true, Bool.not_eq_true'] at h3
  rcases h3 with h3 | h3
  · exact absurd (List.isPrefixOf_iff_prefix.mpr hab) (by simp [h3])
  · exact beq_iff_eq.mp h3

theorem isInternalAt_node {t : ModeTree} {n : List String} (h : isInternalAt t n = true) :
    ∃ cs, subtreeAt t n = some (.node cs) := by
  rw [isInternalAt] at h
  cases hs : subtreeAt t n with
  | none => rw [hs] at h; cases h
  | some t2 =>
    cases t2 with
    | leaf => rw [hs] at h; cases h
    | node cs => exact ⟨cs, rfl⟩

theorem subtreeAt_keys_wf : ∀ (n : List String) (t t2 : ModeTree), wfTree t = true →
    subtreeAt t n = some t2 → ∀ x ∈ n, wfKey x = true
  | [], _, _, _, _ => by simp
  | k :: n2, t, t2, hw, hs => by
    cases t with
    | leaf => rw [subtreeAt] at hs; cases hs
    | node cs =>
      rw [subtreeAt] at hs
      cases hlk : lookupChild k cs with
      | none => rw [hlk] at hs; cases hs
      | some t3 =>
        rw [hlk] at hs
        have hkt := lookupChild_mem hlk
        have hwc := (wfTree_node hw).2.2
        intro x hx
        rcases List.mem_cons.mp hx with rfl | hx2
        · exact (wfChildren_mem hwc hkt).1
        · exact subtreeAt_keys_wf n2 t3 t2 (wfChildren_mem hwc hkt).2 hs x hx2

theorem lookupChild_of_mem_keys : ∀ {cs : List (String × ModeTree)} {k : String},
    k ∈ cs.map Prod.fst → ∃ t2, lookupChild k cs = some t2 := by
  intro cs
  induction cs with
  | nil =>
    intro k h
    simp at h
  | cons kt rest ih =>
    intro k h
    by_cases hak : (kt.1 == k) = true
    · exact ⟨kt.2, by rw [lookupChild, if_pos hak]⟩
    · rw [List.map_cons, List.mem_cons] at h
      rcases h with rfl | h2
      · exact absurd (beq_iff_eq.mpr rfl) hak
      · obtain ⟨t2, ht2⟩ := ih h2
        exact ⟨t2, by rw [lookupChild, if_neg hak]; exact ht2⟩

/-- A child key whose extended path matches a mode marks a key-sequence
ancestor of that mode. -/
theorem match_child_pre {t : ModeTree} {n ms : List String} {k2 : String}
    (hw : wfTree t = true) (hmem : ms ∈ t.keyPaths)
    {cs : List (String × ModeTree)} (hs : subtreeAt t n = some (.node cs))
    (hk2c : k2 ∈ childKeysAt t n)
    (hmk2 : macroMatch (joinKeys (n ++ [k2])) (joinKeys ms) = true) :
    (n ++ [k2]) <+: ms := by
  have hwn : wfTree (.node cs) = true := wf_subtreeAt n t _ hw hs
  have hk2w : wfKey k2 = true := by
    rw [childKeysAt, hs] at hk2c
    obtain ⟨⟨k3, t3⟩, hkt3, rfl⟩ := List.mem_map.mp hk2c
    exact (wfChildren_mem (wfTree_node hwn).2.2 hkt3).1
  have hnw : ∀ x ∈ n, wfKey x = true := subtreeAt_keys_wf n t _ hw hs
  have hgms : ∀ x ∈ ms, wfKey x = true := paths_key_wf ms t hw hmem
  have hgn2 : ∀ x ∈ n ++ [k2], wfKey x = true := by
    intro x hx
    rcases List.mem_append.mp hx with hx | hx
    · exact hnw x hx
    · rw [List.mem_singleton.mp hx]
      exact hk2w
  have hmsne : ms ≠ [] := by
    cases t with
    | leaf =>
      exfalso
      cases n with
      | nil => simp [subtreeAt] at hs
      | cons a n2 => rw [subtreeAt] at hs; cases hs
    | node cs0 => exact mem_keyPaths_ne_nil hmem
  exact (macroMatch_join (good_of_wf hgn2) (good_of_wf hgms) (by simp) hmsne).1 hmk2

/-- The per-node search of the option selector finds exactly the child taken
by a mode passing through the node. -/
theorem find?_child_key {t : ModeTree} {n ms : List String} {k : String} {rest : List String}
    (hw : wfTree t = true) (hmem : ms ∈ t.keyPaths) (hms : ms = n ++ k :: rest) :
    (childKeysAt t n).find? (fun k2 => macroMatch (joinKeys (n ++ [k2])) (joinKeys ms)) =
      some k := by
  have hleaf : subtreeAt t ms = some .leaf := (paths_iff_leafAt ms t hw).mp hmem
  rw [hms, subtreeAt_append] at hleaf
  cases htn : subtreeAt t n with
  | none => rw [htn] at hleaf; cases hleaf
  | some tn =>
    rw [htn, Option.some_bind] at hleaf
    cases tn with
    | leaf => rw [subtreeAt] at hleaf; cases hleaf
    | node cs =>
      rw [subtreeAt] at hleaf
      cases hlk : lookupChild k cs with
      | none => rw [hlk] at hleaf; cases hleaf
      | some t2 =>
        rw [hlk] at hleaf
        have hkmem : k ∈ childKeysAt t n := by
          rw [childKeysAt, htn]
          exact List.mem_map.mpr ⟨(k, t2), lookupChild_mem hlk, rfl⟩
        apply find?_of_unique hkmem
        · show macroMatch (joinKeys (n ++ [k])) (joinKeys ms) = true
          rw [hms, (by simp : n ++ k :: rest = (n ++ [k]) ++ rest)]
          exact macroMatch_self_append (n ++ [k]) rest (by simp)
        · intro k2 hk2 hmk2
          have hpre : (n ++ [k2]) <+: ms := match_child_pre hw hmem htn hk2 hmk2
          rw [hms] at hpre
          have h2 := (List.prefix_append_right_inj n).mp hpre
          exact (List.cons_prefix_cons.mp h2).1

/-- C9: over a well-formed tree, for a label whose listed Internal Node
References all exist in the compiled tree (and are non-nested, as in the
documented usage), the derived selector applied to a Mode returns the key
of the immediate child taken at a listed node whenever the mode's path
passes through that node, returns `none` when the mode passes through no
listed node, and the set of possible non-`none` return values is exactly
the union of immediate-child keys across the listed nodes. -/
theorem c9_mode_options :
    ∀ (t : ModeTree) (refs : List (List String)),
      wfTree t = true → refs.all (fun n => isInternalAt t n) = true →
      noNesting refs = true →
      (∀ ms ∈ t.keyPaths, ∀ n ∈ refs, ∀ (k : String) (rest : List String),
        ms = n ++ k :: rest → optionSelector t refs (joinKeys ms) = some k) ∧
      (∀ ms ∈ t.keyPaths, (∀ n ∈ refs, ¬(n <+: ms ∧ n ≠ ms)) →
        optionSelector t refs (joinKeys ms) = none) ∧
      (∀ k : String, (∃ ms ∈ t.keyPaths, optionSelector t refs (joinKeys ms) = some k) ↔
        ∃ n ∈ refs, k ∈ childKeysAt t n) := by
  intro t refs hw hall hnn
  rw [List.all_eq_true] at hall
  have hpart1 : ∀ ms ∈ t.keyPaths, ∀ n ∈ refs, ∀ (k : String) (rest : List String),
      ms = n ++ k :: rest → optionSelector t refs (joinKeys ms) = some k := by
    intro ms hmem n hn k rest hms
    rw [optionSelector]
    apply findSome?_of_unique hn (find?_child_key hw hmem hms)
    intro n2 hn2 hne
    cases hf : (childKeysAt t n2).find?
        (fun k2 => macroMatch (joinKeys (n2 ++ [k2])) (joinKeys ms)) with
    | none => rfl
    | some k2 =>
      exfalso
      have hpre2 : (n2 ++ [k2]) <+: ms := by
        obtain ⟨cs2, hs2⟩ := isInternalAt_node (hall n2 hn2)
        have hfm := List.find?_some hf
        exact match_child_pre hw hmem hs2 (List.mem_of_find?_eq_some hf) hfm
      have hpre2b : n2 <+: ms := (List.prefix_append n2 [k2]).trans hpre2
      have hpre1 : n <+: ms := by
        rw [hms]
        exact ⟨k :: rest, rfl⟩
      rcases List.prefix_or_prefix_of_prefix hpre2b hpre1 with h | h
      · exact hne (noNesting_eq hnn hn2 hn h)
      · exact hne (noNesting_eq hnn hn hn2 h).symm
  refine ⟨hpart1, ?_, ?_⟩
  · intro ms hmem hnone
    rw [optionSelector]
    apply List.findSome?_eq_none_iff.mpr
    intro n hn
    cases hf : (childKeysAt t n).find?
        (fun k2 => macroMatch (joinKeys (n ++ [k2])) (joinKeys ms)) with
    | none => rfl
    | some k2 =>
      exfalso
      have hpre2 : (n ++ [k2]) <+: ms := by
        obtain ⟨cs2, hs2⟩ := isInternalAt_node (hall n hn)
        have hfm := List.find?_some hf
        exact match_child_pre hw hmem hs2 (List.mem_of_find?_eq_some hf) hfm
      refine hnone n hn ⟨(List.prefix_append n [k2]).trans hpre2, ?_⟩
      intro hcon
      rw [hcon] at hpre2
      have hlen := hpre2.length_le
      simp only [List.length_append, List.length_singleton] at hlen
      omega
  · intro k
    constructor
    · rintro ⟨ms, hmem, hsel⟩
      rw [optionSelector] at hsel
      obtain ⟨n, hn, hf⟩ := List.exists_of_findSome?_eq_some hsel
      exact ⟨n, hn, List.mem_of_find?_eq_some hf⟩
    · rintro ⟨n, hn, hk⟩
      obtain ⟨cs, hs⟩ := isInternalAt_node (hall n hn)
      have hkcs : k ∈ cs.map Prod.fst := by rwa [childKeysAt, hs] at hk
      obtain ⟨t2, hlk⟩ := lookupChild_of_mem_keys hkcs
      have hw2 : wfTree t2 = true := by
        have hwn : wfTree (.node cs) = true := wf_subtreeAt n t _ hw hs
        exact (wfChildren_mem (wfTree_node hwn).2.2 (lookupChild_mem hlk)).2
      obtain ⟨p0, hp0⟩ := List.exists_mem_of_ne_nil _ (keyPaths_ne_nil t2 hw2)
      have hmem2 : (n ++ k :: p0) ∈ t.keyPaths := by
        apply (paths_iff_leafAt _ t hw).mpr
        rw [subtreeAt_append, hs, Option.some_bind, subtreeAt, hlk]
        exact (paths_iff_leafAt p0 t2 hw2).mp hp0
      exact ⟨n ++ k :: p0, hmem2, hpart1 _ hmem2 n hn k p0 rfl⟩

/-- Witness for C9: the documented `wallMode` label of the architectural
tree, listing the two parallel `wall` nodes. -/
theorem c9_mode_options_witness :
    (∀ ms ∈ ModeTree.keyPaths archTree,
      ∀ n ∈ [["root", "planeView", "wall"], ["root", "view3D", "wall"]],
      ∀ (k : String) (rest : List String),
        ms = n ++ k :: rest →
        optionSelector archTree [["root", "planeView", "wall"], ["root", "view3D", "wall"]]
          (joinKeys ms) = some k) ∧
    (∀ ms ∈ ModeTree.keyPaths archTree,
      (∀ n ∈ [["root", "planeView", "wall"], ["root", "view3D", "wall"]],
        ¬(n <+: ms ∧ n ≠ ms)) →
      optionSelector archTree [["root", "planeView", "wall"], ["root", "view3D", "wall"]]
        (joinKeys ms) = none) ∧
    (∀ k : String,
      (∃ ms ∈ ModeTree.keyPaths archTree,
        optionSelector archTree [["root", "planeView", "wall"], ["root", "view3D", "wall"]]
          (joinKeys ms) = some k) ↔
      ∃ n ∈ [["root", "planeView", "wall"], ["root", "view3D", "wall"]],
        k ∈ childKeysAt archTree n) :=
  c9_mode_options archTree [["root", "planeView", "wall"], ["root", "view3D", "wall"]]
    (by decide) (by decide) (by decide)
